import Mathlib

/-!
Shallow embedding of the jstat core (src/src/core.js): the special functions
`factorial` and `gamma`, the combinatorial helpers, and the discrete
distribution pmf/cdf catalogue, together with proofs of the specified
properties.

JavaScript numbers are modelled by real numbers `ℝ`; the extra runtime
values that the library's control flow can produce — `NaN`, `Infinity`,
`-Infinity` and the boolean `false` used as a rejection sentinel by the
discrete pmfs — are modelled by the extra constructors of `JVal`.
Floating-point rounding is not modelled; the spec's identities are exact
real-arithmetic statements.
-/

noncomputable section

/-- A JavaScript value as produced by the jstat core: a finite number, one of
the special numbers `NaN`, `Infinity`, `-Infinity`, or the literal `false`
that the discrete pmfs return for a non-integer occurrence count. -/
inductive JVal : Type where
  | real (v : ℝ)
  | nan
  | inf
  | ninf
  | fls

/-- JavaScript `ToNumber` coercion on the values that can reach an arithmetic
operator here: `false` coerces to `0`, every other value stands for itself. -/
def JVal.toNum : JVal → JVal
  | .real v => .real v
  | .nan => .nan
  | .inf => .inf
  | .ninf => .ninf
  | .fls => .real 0

/-- JavaScript `+` on the modelled values: `NaN` propagates, opposite
infinities give `NaN`. (The `.fls` arms are unreachable after `toNum`.) -/
def jadd (a b : JVal) : JVal :=
  match a.toNum, b.toNum with
  | .real x, .real y => .real (x + y)
  | .nan, _ => .nan
  | _, .nan => .nan
  | .inf, .ninf => .nan
  | .ninf, .inf => .nan
  | .inf, _ => .inf
  | _, .inf => .inf
  | .ninf, _ => .ninf
  | _, .ninf => .ninf
  | .fls, _ => .nan
  | _, .fls => .nan

/-- JavaScript `*` on the modelled values: `NaN` propagates, `Infinity * 0`
is `NaN`, otherwise infinities follow the sign rules. -/
def jmul (a b : JVal) : JVal :=
  match a.toNum, b.toNum with
  | .real x, .real y => .real (x * y)
  | .nan, _ => .nan
  | _, .nan => .nan
  | .inf, .real y => if 0 < y then .inf else if y < 0 then .ninf else .nan
  | .real x, .inf => if 0 < x then .inf else if x < 0 then .ninf else .nan
  | .ninf, .real y => if 0 < y then .ninf else if y < 0 then .inf else .nan
  | .real x, .ninf => if 0 < x then .ninf else if x < 0 then .inf else .nan
  | .inf, .inf => .inf
  | .ninf, .ninf => .inf
  | .inf, .ninf => .ninf
  | .ninf, .inf => .ninf
  | .fls, _ => .nan
  | _, .fls => .nan

/-- JavaScript `/` on the modelled values: a nonzero number divided by `0`
gives a signed infinity, `0 / 0` gives `NaN`, `NaN` propagates, a finite
number divided by an infinity gives `0`, `Infinity / Infinity` gives `NaN`.
(JavaScript's signed zero is not modelled: `ℝ` has a single `0`, and no code
path of the library distinguishes `+0` from `-0`.) -/
def jdiv (a b : JVal) : JVal :=
  match a.toNum, b.toNum with
  | .real x, .real y =>
      if y = 0 then (if 0 < x then .inf else if x < 0 then .ninf else .nan)
      else .real (x / y)
  | .nan, _ => .nan
  | _, .nan => .nan
  | .real _, .inf => .real 0
  | .real _, .ninf => .real 0
  | .inf, .real y => if 0 ≤ y then .inf else .ninf
  | .ninf, .real y => if 0 ≤ y then .ninf else .inf
  | .inf, .inf => .nan
  | .inf, .ninf => .nan
  | .ninf, .inf => .nan
  | .ninf, .ninf => .nan
  | .fls, _ => .nan
  | _, .fls => .nan

/-- JavaScript `-` (binary) on the modelled values: `NaN` propagates,
same-signed infinities give `NaN`. (The `.fls` arms are unreachable after
`toNum`.) -/
def jsub (a b : JVal) : JVal :=
  match a.toNum, b.toNum with
  | .real x, .real y => .real (x - y)
  | .nan, _ => .nan
  | _, .nan => .nan
  | .inf, .inf => .nan
  | .ninf, .ninf => .nan
  | .inf, _ => .inf
  | _, .inf => .ninf
  | .ninf, _ => .ninf
  | _, .ninf => .inf
  | .fls, _ => .nan
  | _, .fls => .nan

/-- JavaScript `Math.log` on a finite argument: `NaN` for a negative
argument, `-Infinity` at `0`, and the real logarithm on the positive
domain. -/
def jlog (x : ℝ) : JVal :=
  if x < 0 then .nan
  else if x = 0 then .ninf
  else .real (Real.log x)

/-- JavaScript `Math.exp` on the modelled values: the real exponential on a
finite argument, `NaN` propagates, `Math.exp(Infinity) = Infinity` and
`Math.exp(-Infinity) = 0`. (The `.fls` arm is unreachable.) -/
def jexp : JVal → JVal
  | .real v => .real (Real.exp v)
  | .nan => .nan
  | .inf => .inf
  | .ninf => .real 0
  | .fls => .real 1

/-- JavaScript `Math.pow` on finite arguments: exponent `0` gives `1`; a
negative base with a non-integer exponent gives `NaN`; base `0` with a
negative exponent gives `Infinity`; otherwise the value is `Real.rpow`
(which agrees with JavaScript on the remaining finite cases, in particular
on negative bases with integer exponents). -/
def jpow (x y : ℝ) : JVal :=
  if y = 0 then .real 1
  else if x < 0 ∧ y ≠ ↑⌊y⌋ then .nan
  else if x = 0 ∧ y < 0 then .inf
  else .real (x ^ y)

/-- The running `sum = 0; for (i = 0; i < m; i++) sum += f(i);` pattern used
by every cdf loop of the source: a left fold of `jadd` over `0, …, m-1`. -/
def jsum (m : ℕ) (f : ℕ → JVal) : JVal :=
  (List.range m).foldl (fun s i => jadd s (f i)) (.real 0)

namespace jstat

/-- The loop `for(; n > 0; n--) { fval *= n; }` of `jstat.factorial`,
unrolled on an explicit iteration count: `factLoop k n = n * (n-1) * … *
(n-k+1)` with `factLoop 0 n = 1`. -/
def factLoop : ℕ → ℝ → ℝ
  | 0, _ => 1
  | k + 1, n => n * factLoop k (n - 1)

/-- The argument-shifting loop `while (x < 8) { v *= x; x++; }` of
`jstat.gamma`, unrolled on an explicit iteration count: returns the final
`(v, x)` after `m` iterations starting from accumulator `v` and argument
`x`. -/
def gammaShift : ℕ → ℝ → ℝ → ℝ × ℝ
  | 0, v, x => (v, x)
  | m + 1, v, x => gammaShift m (v * x) (x + 1)

/-- The non-integer branch of `jstat.gamma`: shift the argument up past `8`
(the loop runs `⌈8 - x⌉` times, which is exactly the number of iterations of
`while (x < 8) { v *= x; x++; }`, and `0` times when `x ≥ 8`), then evaluate
the fixed-coefficient asymptotic series in `w = 1/x²` and exponentiate.
After the loop the shifted argument is at least `8` (`gammaShift_arg_ge`
below), so `w`, the Horner polynomial and its division by the shifted
argument are exact real arithmetic; the two `Math.log` calls — whose
argument can leave the positive domain, in particular the accumulator `v`
is negative whenever the loop multiplied an odd number of negative factors
— and the surrounding `+`, `-`, `*` and `Math.exp` are modelled by the
`JVal` operations, so a `NaN` from a negative-argument logarithm propagates
to the result exactly as in JavaScript. -/
def gammaSeries (x : ℝ) : JVal :=
  let p := gammaShift (⌈(8 : ℝ) - x⌉.toNat) 1 x
  let v := p.1
  let x := p.2
  let w := 1 / (x * x)
  jexp (jadd (jsub (jsub (jadd
      (.real ((((((((-3617 / 122400 * w + 7 / 1092) * w - 691 / 360360) * w
        + 5 / 5940) * w - 1 / 1680) * w + 1 / 1260) * w - 1 / 360) * w + 1 / 12) / x))
      (jmul (.real 0.5) (jlog (2 * Real.pi))))
      (jlog v))
      (.real x))
      (jmul (.real (x - 0.5)) (jlog x)))

/-- `jstat.factorial(n)`: `NaN` for `n < 0`; for non-integer `n`, the source
calls `jstat.gamma(n + 1)` — since `n + 1` is then also non-integer,
`jstat.gamma` always takes its asymptotic-series branch on that call, so the
call is inlined as `gammaSeries (n + 1)` here (this breaks the otherwise
mutual recursion; the equation `factorial n = gamma (n + 1)` is recovered as
a theorem below); otherwise `n` is a non-negative integer and the product
loop runs `⌊n⌋` times. -/
def factorial (n : ℝ) : JVal :=
  if n < 0 then .nan
  else if n ≠ ↑⌊n⌋ then gammaSeries (n + 1)
  else .real (factLoop ⌊n⌋.toNat n)

/-- `jstat.gamma(x)`: for integer `x` return `factorial (x - 1)` directly,
otherwise evaluate the asymptotic series. -/
def gamma (x : ℝ) : JVal :=
  if x = ↑⌊x⌋ then factorial (x - 1)
  else gammaSeries x

/-- `jstat.combination(n, k) = (factorial(n) / factorial(k)) / factorial(n - k)`. -/
def combination (n k : ℝ) : JVal :=
  jdiv (jdiv (factorial n) (factorial k)) (factorial (n - k))

/-- `jstat.permutation(n, r) = factorial(n) / factorial(n - r)`. -/
def permutation (n r : ℝ) : JVal :=
  jdiv (factorial n) (factorial (n - r))

/-- `jstat.uniformcdf(a, b, x)`: `0` if `x < a`, else `(x - a)/(b - a)` if
`x < b`, else `1`. -/
def uniformcdf (a b x : ℝ) : JVal :=
  if x < a then .real 0
  else if x < b then jdiv (.real (x - a)) (.real (b - a))
  else .real 1

/-- `jstat.binomial(n, p, k) = combination(n, k) * p^k * (1-p)^(n-k)` (the
binomial pmf). -/
def binomial (n p k : ℝ) : JVal :=
  jmul (jmul (combination n k) (jpow p k)) (jpow (1 - p) (n - k))

/-- `jstat.binomialcdf(n, p, x)`: `0` if `x < 0`; otherwise the source fills
`binomarr[k] = binomial(n, p, k)` for integer `k = 0, 1, …` while `k < n`
(that is `⌈n⌉` entries), and if `x < n` sums `binomarr[i]` for integer
`i = 0, …` while `i ≤ x` (reading past the array's end would give
`undefined`, which `+` turns into `NaN`, modelled by the `.nan` default);
for `x ≥ n` it returns the literal `1`. -/
def binomialcdf (n p x : ℝ) : JVal :=
  if x < 0 then .real 0
  else
    let binomarr : List JVal := (List.range ⌈n⌉.toNat).map fun k : ℕ => binomial n p (k : ℝ)
    if x < n then jsum (⌊x⌋.toNat + 1) (fun i => binomarr.getD i .nan)
    else .real 1

/-- `jstat.negbin(r, p, x)`: `false` for non-integer `x`, `0` for `x < 0`,
else `combination(x + r - 1, r - 1) * p^r * (1-p)^x`. -/
def negbin (r p x : ℝ) : JVal :=
  if x ≠ ↑⌊x⌋ then .fls
  else if x < 0 then .real 0
  else jmul (jmul (combination (x + r - 1) (r - 1)) (jpow p r)) (jpow (1 - p) x)

/-- `jstat.negbincdf(n, p, x)`: `0` if `x < 0`, else the loop
`for (k = 0; k <= x; k++) sum += negbin(n, p, k)`, which adds the pmf at
`k = 0, …, ⌊x⌋`. -/
def negbincdf (n p x : ℝ) : JVal :=
  if x < 0 then .real 0
  else jsum (⌊x⌋.toNat + 1) fun k => negbin n p (k : ℝ)

/-- `jstat.hypgeom(N, m, n, x)`: `false` for non-integer `x`, `0` for
`x < 0`, else `combination(m, x) * combination(N - m, n - x) / combination(N, n)`. -/
def hypgeom (N m n x : ℝ) : JVal :=
  if x ≠ ↑⌊x⌋ then .fls
  else if x < 0 then .real 0
  else jdiv (jmul (combination m x) (combination (N - m) (n - x))) (combination N n)

/-- `jstat.hypgeomcdf(N, m, n, x)`: `0` if `x < 0`, else the sum of the pmf
at `k = 0, …, ⌊x⌋`. -/
def hypgeomcdf (N m n x : ℝ) : JVal :=
  if x < 0 then .real 0
  else jsum (⌊x⌋.toNat + 1) fun k => hypgeom N m n (k : ℝ)

/-- `jstat.exponentialcdf(l, x) = 1 - Math.exp(-x)`: the rate parameter `l`
is accepted but does not occur in the body. -/
def exponentialcdf (l x : ℝ) : ℝ :=
  1 - Real.exp (-x)

/-- `jstat.poisson(l, x) = Math.pow(l, x) * Math.exp(-l) / factorial(x)`
(no integer check on `x`). -/
def poisson (l x : ℝ) : JVal :=
  jdiv (jmul (jpow l x) (.real (Real.exp (-l)))) (factorial x)

/-- `jstat.poissoncdf(l, x)`: `0` if `x < 0`, else the sum of the pmf at
`k = 0, …, ⌊x⌋`. -/
def poissoncdf (l x : ℝ) : JVal :=
  if x < 0 then .real 0
  else jsum (⌊x⌋.toNat + 1) fun k => poisson l (k : ℝ)

/-- `jstat.sumFunc(func, a, b)`: the loop `while (a <= b) { sum += func(a);
a++; }`, which evaluates `func` at `a, a + 1, …` for `⌊b - a⌋ + 1` steps
when `a ≤ b` and zero steps otherwise. -/
def sumFunc (func : ℝ → JVal) (a b : ℝ) : JVal :=
  jsum (if a ≤ b then ⌊b - a⌋.toNat + 1 else 0) fun i => func (a + (i : ℝ))

end jstat

section ValueLemmas

lemma jadd_real (a b : ℝ) : jadd (.real a) (.real b) = .real (a + b) := rfl

lemma jmul_real (a b : ℝ) : jmul (.real a) (.real b) = .real (a * b) := rfl

lemma jdiv_real (a b : ℝ) (h : b ≠ 0) : jdiv (.real a) (.real b) = .real (a / b) := by
  simp [jdiv, JVal.toNum, h]

lemma jsub_real (a b : ℝ) : jsub (.real a) (.real b) = .real (a - b) := rfl

lemma jexp_real (a : ℝ) : jexp (.real a) = .real (Real.exp a) := rfl

lemma jlog_pos {y : ℝ} (h : 0 < y) : jlog y = .real (Real.log y) := by
  rw [jlog, if_neg (not_lt.mpr h.le), if_neg h.ne']

lemma jdiv_ne_fls (a b : JVal) : jdiv a b ≠ .fls := by
  cases a <;> cases b <;> simp [jdiv, JVal.toNum] <;> split_ifs <;> simp

lemma jsum_zero (f : ℕ → JVal) : jsum 0 f = .real 0 := rfl

lemma jsum_succ (m : ℕ) (f : ℕ → JVal) : jsum (m + 1) f = jadd (jsum m f) (f m) := by
  simp [jsum, List.range_succ]

lemma jsum_congr {m : ℕ} {f g : ℕ → JVal} (h : ∀ i < m, f i = g i) :
    jsum m f = jsum m g := by
  induction m with
  | zero => rfl
  | succ m ih =>
      rw [jsum_succ, jsum_succ, ih fun i hi => h i (Nat.lt_succ_of_lt hi),
        h m (Nat.lt_succ_self m)]

lemma jsum_real {m : ℕ} {f : ℕ → JVal} (g : ℕ → ℝ) (h : ∀ i < m, f i = .real (g i)) :
    jsum m f = .real (∑ i in Finset.range m, g i) := by
  induction m with
  | zero => simp [jsum_zero]
  | succ m ih =>
      rw [jsum_succ, ih fun i hi => h i (Nat.lt_succ_of_lt hi), h m (Nat.lt_succ_self m),
        jadd_real, Finset.sum_range_succ]

end ValueLemmas

namespace jstat

lemma factLoop_natCast (n : ℕ) : factLoop n (n : ℝ) = ((Nat.factorial n : ℕ) : ℝ) := by
  induction n with
  | zero => simp [factLoop]
  | succ n ih =>
      have h1 : ((n : ℝ) + 1) - 1 = (n : ℝ) := by ring
      rw [factLoop, Nat.cast_succ, h1, ih, Nat.factorial_succ]
      push_cast
      ring

lemma gammaShift_eq (m : ℕ) (v x : ℝ) :
    gammaShift m v x = (v * ∏ i in Finset.range m, (x + (i : ℝ)), x + (m : ℝ)) := by
  induction m generalizing v x with
  | zero => simp [gammaShift]
  | succ m ih =>
      rw [gammaShift, ih]
      have h1 : ∏ i in Finset.range m, (x + 1 + (i : ℝ)) =
          ∏ i in Finset.range m, (x + ((i + 1 : ℕ) : ℝ)) :=
        Finset.prod_congr rfl fun i _ => by push_cast; ring
      rw [Prod.mk.injEq]
      constructor
      · rw [h1, Finset.prod_range_succ']
        push_cast
        ring
      · push_cast
        ring

lemma gammaShift_arg_ge (x : ℝ) :
    (8 : ℝ) ≤ (gammaShift (⌈(8 : ℝ) - x⌉.toNat) 1 x).2 := by
  rw [gammaShift_eq]
  rcases le_or_lt 8 x with h | h
  · have h0 : (0 : ℝ) ≤ ((⌈(8 : ℝ) - x⌉.toNat : ℕ) : ℝ) := Nat.cast_nonneg _
    dsimp only
    linarith
  · have h1 : (0 : ℤ) ≤ ⌈(8 : ℝ) - x⌉ := Int.ceil_nonneg (by linarith)
    have h2 : ((⌈(8 : ℝ) - x⌉.toNat : ℕ) : ℝ) = ((⌈(8 : ℝ) - x⌉ : ℤ) : ℝ) := by
      exact_mod_cast congrArg (fun z : ℤ => (z : ℝ)) (Int.toNat_of_nonneg h1)
    have h3 : (8 : ℝ) - x ≤ ((⌈(8 : ℝ) - x⌉ : ℤ) : ℝ) := Int.le_ceil _
    dsimp only
    rw [h2]
    linarith

lemma gammaSeries_isReal {x : ℝ} (hv : 0 < (gammaShift (⌈(8 : ℝ) - x⌉.toNat) 1 x).1) :
    ∃ s : ℝ, gammaSeries x = .real s := by
  have hx : 0 < (gammaShift (⌈(8 : ℝ) - x⌉.toNat) 1 x).2 :=
    lt_of_lt_of_le (by norm_num) (gammaShift_arg_ge x)
  have hpi : (0 : ℝ) < 2 * Real.pi := by positivity
  simp only [gammaSeries, jlog_pos hpi, jlog_pos hv, jlog_pos hx, jmul_real, jadd_real,
    jsub_real, jexp_real]
  exact ⟨_, rfl⟩

lemma factorial_neg {x : ℝ} (h : x < 0) : factorial x = .nan := by
  rw [factorial, if_pos h]

lemma factorial_nonneg_noninteger {x : ℝ} (h0 : ¬ x < 0) (h1 : x ≠ ↑⌊x⌋) :
    factorial x = gammaSeries (x + 1) := by
  rw [factorial, if_neg h0, if_pos h1]

lemma factorial_natCast (n : ℕ) : factorial (n : ℝ) = .real ((Nat.factorial n : ℕ) : ℝ) := by
  rw [factorial, if_neg (not_lt.mpr (Nat.cast_nonneg n)),
    if_neg (by simp [Int.floor_natCast])]
  simp [Int.floor_natCast, factLoop_natCast]

lemma noninteger_add_one {x : ℝ} (h : x ≠ ↑⌊x⌋) : x + 1 ≠ ↑⌊x + 1⌋ := by
  rw [Int.floor_add_one]
  push_cast
  intro hc
  exact h (by linarith)

lemma gamma_noninteger {x : ℝ} (h : x ≠ ↑⌊x⌋) : gamma x = gammaSeries x := by
  rw [gamma, if_neg h]

lemma factorial_delegates {x : ℝ} (h0 : ¬ x < 0) (h1 : x ≠ ↑⌊x⌋) :
    factorial x = gamma (x + 1) := by
  rw [factorial_nonneg_noninteger h0 h1, gamma_noninteger (noninteger_add_one h1)]

lemma gamma_nat_succ (n : ℕ) : gamma ((n : ℝ) + 1) = factorial (n : ℝ) := by
  have h1 : ((n : ℝ) + 1) = ↑⌊(n : ℝ) + 1⌋ := by
    rw [Int.floor_add_one, Int.floor_natCast]
    push_cast
    ring
  rw [gamma, if_pos h1]
  norm_num

lemma jpow_natCast (x : ℝ) (k : ℕ) : jpow x (k : ℝ) = .real (x ^ k) := by
  rcases Nat.eq_zero_or_pos k with hk | hk
  · subst hk
    simp [jpow]
  · rw [jpow, if_neg (by exact_mod_cast hk.ne'),
      if_neg (by simp [Int.floor_natCast]),
      if_neg (by rintro ⟨-, hneg⟩; exact absurd hneg (not_lt.mpr (by positivity))),
      Real.rpow_natCast]

lemma cast_factorial_ne_zero (k : ℕ) : ((Nat.factorial k : ℕ) : ℝ) ≠ 0 :=
  Nat.cast_ne_zero.mpr k.factorial_ne_zero

lemma combination_natCast {n k : ℕ} (h : k ≤ n) :
    combination (n : ℝ) (k : ℝ) = .real ((n.choose k : ℕ) : ℝ) := by
  have hsub : (n : ℝ) - (k : ℝ) = ((n - k : ℕ) : ℝ) := by
    push_cast [h]
    ring
  rw [combination, hsub, factorial_natCast, factorial_natCast, factorial_natCast,
    jdiv_real _ _ (cast_factorial_ne_zero k), jdiv_real _ _ (cast_factorial_ne_zero (n - k))]
  rw [Nat.cast_choose ℝ h, div_div]

lemma binomial_natCast {n k : ℕ} (p : ℝ) (h : k ≤ n) :
    binomial (n : ℝ) p (k : ℝ) =
      .real (((n.choose k : ℕ) : ℝ) * p ^ k * (1 - p) ^ (n - k)) := by
  have hsub : (n : ℝ) - (k : ℝ) = ((n - k : ℕ) : ℝ) := by
    push_cast [h]
    ring
  rw [binomial, hsub, combination_natCast h, jpow_natCast, jpow_natCast,
    jmul_real, jmul_real]

end jstat

section ListLemmas

lemma getD_range_map (f : ℕ → JVal) {i n : ℕ} (h : i < n) (d : JVal) :
    ((List.range n).map f).getD i d = f i := by
  rw [List.getD_eq_getElem?_getD]
  simp [List.getElem?_range, h]

end ListLemmas

namespace jstat

lemma binomialcdf_sum_form {n p x : ℝ} (h0 : 0 ≤ x) (h1 : x < n) :
    binomialcdf n p x = jsum (⌊x⌋.toNat + 1) (fun i => binomial n p (i : ℝ)) := by
  rw [binomialcdf, if_neg (not_lt.mpr h0)]
  simp only [if_pos h1]
  apply jsum_congr
  intro i hi
  apply getD_range_map
  have hfl : (0 : ℤ) ≤ ⌊x⌋ := Int.floor_nonneg.mpr h0
  have h2 : (i : ℤ) ≤ ⌊x⌋ := by
    have hi' : i ≤ ⌊x⌋.toNat := Nat.lt_succ_iff.mp hi
    omega
  have h3 : (i : ℝ) < n := by
    calc (i : ℝ) ≤ ((⌊x⌋ : ℤ) : ℝ) := by exact_mod_cast h2
    _ ≤ x := Int.floor_le x
    _ < n := h1
  have h4 : (i : ℤ) < ⌈n⌉ := Int.lt_ceil.mpr (by exact_mod_cast h3)
  exact Int.lt_toNat.mpr h4

lemma sumFunc_zero_bound (f : ℝ → JVal) {x : ℝ} (hx : 0 ≤ x) :
    sumFunc f 0 x = jsum (⌊x⌋.toNat + 1) fun k => f (k : ℝ) := by
  rw [sumFunc, if_pos hx, sub_zero]
  exact jsum_congr fun i _ => by rw [zero_add]

lemma sum_choose_mul_pow (n : ℕ) (p : ℝ) :
    ∑ k in Finset.range (n + 1), ((n.choose k : ℕ) : ℝ) * p ^ k * (1 - p) ^ (n - k) = 1 := by
  calc ∑ k in Finset.range (n + 1), ((n.choose k : ℕ) : ℝ) * p ^ k * (1 - p) ^ (n - k)
      = ∑ k in Finset.range (n + 1), p ^ k * (1 - p) ^ (n - k) * ((n.choose k : ℕ) : ℝ) :=
        Finset.sum_congr rfl fun k _ => by ring
    _ = (p + (1 - p)) ^ n := (add_pow p (1 - p) n).symm
    _ = 1 := by norm_num

lemma binomial_term_nonneg (n k : ℕ) {p : ℝ} (hp0 : 0 ≤ p) (hp1 : p ≤ 1) :
    0 ≤ ((n.choose k : ℕ) : ℝ) * p ^ k * (1 - p) ^ (n - k) :=
  mul_nonneg (mul_nonneg (Nat.cast_nonneg _) (pow_nonneg hp0 _))
    (pow_nonneg (by linarith) _)

lemma binomial_term_le_one {n k : ℕ} (hk : k ≤ n) {p : ℝ} (hp0 : 0 ≤ p) (hp1 : p ≤ 1) :
    ((n.choose k : ℕ) : ℝ) * p ^ k * (1 - p) ^ (n - k) ≤ 1 := by
  calc ((n.choose k : ℕ) : ℝ) * p ^ k * (1 - p) ^ (n - k)
      ≤ ∑ i in Finset.range (n + 1), ((n.choose i : ℕ) : ℝ) * p ^ i * (1 - p) ^ (n - i) :=
        Finset.single_le_sum (fun i _ => binomial_term_nonneg n i hp0 hp1)
          (Finset.mem_range.mpr (Nat.lt_succ_of_le hk))
    _ = 1 := sum_choose_mul_pow n p

lemma negbin_natCast {r x : ℕ} (hr : 1 ≤ r) (p : ℝ) :
    negbin (r : ℝ) p (x : ℝ) =
      .real ((((x + r - 1).choose (r - 1) : ℕ) : ℝ) * p ^ r * (1 - p) ^ x) := by
  rw [negbin, if_neg (by simp [Int.floor_natCast]), if_neg (not_lt.mpr (Nat.cast_nonneg x))]
  have h1 : (x : ℝ) + (r : ℝ) - 1 = ((x + r - 1 : ℕ) : ℝ) := by
    rw [Nat.cast_sub (by omega), Nat.cast_add, Nat.cast_one]
  have h2 : (r : ℝ) - 1 = ((r - 1 : ℕ) : ℝ) := by
    rw [Nat.cast_sub hr, Nat.cast_one]
  rw [h1, h2, combination_natCast (by omega), jpow_natCast, jpow_natCast,
    jmul_real, jmul_real]

lemma negbin_sum_le_one (r t : ℕ) (hr : 1 ≤ r) {p : ℝ} (hp0 : 0 ≤ p) (hp1 : p ≤ 1) :
    ∑ k in Finset.range (t + 1),
      (((k + r - 1).choose (r - 1) : ℕ) : ℝ) * p ^ r * (1 - p) ^ k ≤ 1 := by
  rcases eq_or_lt_of_le hp0 with hp | hp
  · have hz : p ^ r = 0 := by rw [← hp, zero_pow (by omega : r ≠ 0)]
    simp [hz]
  · have hq0 : (0 : ℝ) ≤ 1 - p := by linarith
    have hnorm : ‖(1 - p : ℝ)‖ < 1 := by
      rw [Real.norm_eq_abs, abs_of_nonneg hq0]
      linarith
    have hsummable : Summable fun n : ℕ => (((n + (r - 1)).choose (r - 1) : ℕ) : ℝ) * (1 - p) ^ n :=
      summable_choose_mul_geometric_of_norm_lt_one (r - 1) hnorm
    have htsum : tsum (fun n : ℕ => (((n + (r - 1)).choose (r - 1) : ℕ) : ℝ) * (1 - p) ^ n)
        = 1 / (1 - (1 - p)) ^ ((r - 1) + 1) :=
      tsum_choose_mul_geometric_of_norm_lt_one (r - 1) hnorm
    have hpartial : ∑ k in Finset.range (t + 1),
        (((k + (r - 1)).choose (r - 1) : ℕ) : ℝ) * (1 - p) ^ k
        ≤ 1 / (1 - (1 - p)) ^ ((r - 1) + 1) := by
      rw [← htsum]
      exact sum_le_tsum _ (fun i _ => mul_nonneg (Nat.cast_nonneg _) (pow_nonneg hq0 _))
        hsummable
    have hr1 : (r - 1) + 1 = r := by omega
    have h1q : 1 - (1 - p) = p := by ring
    rw [hr1, h1q] at hpartial
    have key : ∑ k in Finset.range (t + 1),
        (((k + r - 1).choose (r - 1) : ℕ) : ℝ) * p ^ r * (1 - p) ^ k
        = p ^ r * ∑ k in Finset.range (t + 1),
            (((k + (r - 1)).choose (r - 1) : ℕ) : ℝ) * (1 - p) ^ k := by
      rw [Finset.mul_sum]
      refine Finset.sum_congr rfl fun k _ => ?_
      have hkr : k + r - 1 = k + (r - 1) := by omega
      rw [hkr]
      ring
    rw [key]
    calc p ^ r * ∑ k in Finset.range (t + 1),
          (((k + (r - 1)).choose (r - 1) : ℕ) : ℝ) * (1 - p) ^ k
        ≤ p ^ r * (1 / p ^ r) := by
          exact mul_le_mul_of_nonneg_left hpartial (by positivity)
      _ = 1 := by
          field_simp

lemma hypgeom_natCast {N m n x : ℕ} (hxm : x ≤ m) (hxn : x ≤ n) (hmn : m + n ≤ N + x) :
    hypgeom (N : ℝ) (m : ℝ) (n : ℝ) (x : ℝ) =
      .real ((((m.choose x : ℕ) : ℝ) * (((N - m).choose (n - x) : ℕ) : ℝ))
        / ((N.choose n : ℕ) : ℝ)) := by
  have hmN : m ≤ N := by omega
  have hnN : n ≤ N := by omega
  rw [hypgeom, if_neg (by simp [Int.floor_natCast]), if_neg (not_lt.mpr (Nat.cast_nonneg x))]
  have h1 : (N : ℝ) - (m : ℝ) = ((N - m : ℕ) : ℝ) := (Nat.cast_sub hmN).symm
  have h2 : (n : ℝ) - (x : ℝ) = ((n - x : ℕ) : ℝ) := (Nat.cast_sub hxn).symm
  rw [h1, h2, combination_natCast hxm, combination_natCast (by omega : n - x ≤ N - m),
    combination_natCast hnN, jmul_real,
    jdiv_real _ _ (Nat.cast_ne_zero.mpr (Nat.choose_pos hnN).ne')]

lemma hypgeom_num_sum_le {N m n t : ℕ} (hmN : m ≤ N) (htn : t ≤ n) :
    ∑ k in Finset.range (t + 1), m.choose k * (N - m).choose (n - k) ≤ N.choose n := by
  have h := Nat.add_choose_eq m (N - m) n
  rw [Nat.add_sub_cancel' hmN] at h
  have h2 : ∑ ij in Finset.antidiagonal n, m.choose ij.1 * (N - m).choose ij.2
      = ∑ k in Finset.range (n + 1), m.choose k * (N - m).choose (n - k) :=
    Finset.Nat.sum_antidiagonal_eq_sum_range_succ
      (fun i j => m.choose i * (N - m).choose j) n
  rw [h, h2]
  exact Finset.sum_le_sum_of_subset (Finset.range_subset.mpr (by omega))

lemma poisson_natCast (l : ℝ) (x : ℕ) :
    poisson l (x : ℝ) = .real (l ^ x * Real.exp (-l) / ((Nat.factorial x : ℕ) : ℝ)) := by
  rw [poisson, jpow_natCast, factorial_natCast, jmul_real,
    jdiv_real _ _ (cast_factorial_ne_zero x)]

lemma poisson_sum_le_one {l : ℝ} (hl : 0 ≤ l) (t : ℕ) :
    ∑ k in Finset.range (t + 1),
      l ^ k * Real.exp (-l) / ((Nat.factorial k : ℕ) : ℝ) ≤ 1 := by
  have h : ∑ k in Finset.range (t + 1), l ^ k * Real.exp (-l) / ((Nat.factorial k : ℕ) : ℝ)
      = (∑ k in Finset.range (t + 1), l ^ k / ((Nat.factorial k : ℕ) : ℝ)) * Real.exp (-l) := by
    rw [Finset.sum_mul]
    exact Finset.sum_congr rfl fun k _ => by ring
  rw [h]
  calc (∑ k in Finset.range (t + 1), l ^ k / ((Nat.factorial k : ℕ) : ℝ)) * Real.exp (-l)
      ≤ Real.exp l * Real.exp (-l) :=
        mul_le_mul_of_nonneg_right (Real.sum_le_exp_of_nonneg hl (t + 1)) (Real.exp_pos _).le
    _ = 1 := by rw [← Real.exp_add]; simp

lemma poisson_term_le_one {l : ℝ} (hl : 0 ≤ l) (x : ℕ) :
    l ^ x * Real.exp (-l) / ((Nat.factorial x : ℕ) : ℝ) ≤ 1 := by
  calc l ^ x * Real.exp (-l) / ((Nat.factorial x : ℕ) : ℝ)
      ≤ ∑ k in Finset.range (x + 1), l ^ k * Real.exp (-l) / ((Nat.factorial k : ℕ) : ℝ) :=
        Finset.single_le_sum
          (fun i _ => div_nonneg (mul_nonneg (pow_nonneg hl i) (Real.exp_pos _).le)
            (Nat.cast_nonneg _))
          (Finset.mem_range.mpr (Nat.lt_succ_self x))
    _ ≤ 1 := poisson_sum_le_one hl x

lemma floor_toNat_le {x : ℝ} (h0 : 0 ≤ x) : ((⌊x⌋.toNat : ℕ) : ℝ) ≤ x := by
  have h2 : ((⌊x⌋.toNat : ℕ) : ℤ) = ⌊x⌋ := Int.toNat_of_nonneg (Int.floor_nonneg.mpr h0)
  calc ((⌊x⌋.toNat : ℕ) : ℝ) = ((⌊x⌋ : ℤ) : ℝ) := by exact_mod_cast congrArg (fun z : ℤ => (z : ℝ)) h2
    _ ≤ x := Int.floor_le x

end jstat

/-- Claim C1: for a non-negative integer `n`, `p ∈ [0,1]` and an integer
`x` with `0 ≤ x ≤ n`, `binomialcdf(n, p, x)` equals the sum of the binomial
pmf `combination(n,k) · p^k · (1-p)^(n-k)` for `k = 0, …, x` — including at
`x = n`, where the source returns the literal `1` and the identity is the
binomial theorem. -/
theorem binomialcdf_eq_sum_pmf (n x : ℕ) (p : ℝ) (hp0 : 0 ≤ p) (hp1 : p ≤ 1)
    (hx : x ≤ n) :
    jstat.binomialcdf (n : ℝ) p (x : ℝ) =
      .real (∑ k in Finset.range (x + 1),
        ((n.choose k : ℕ) : ℝ) * p ^ k * (1 - p) ^ (n - k)) := by
  rcases lt_or_eq_of_le hx with hlt | heq
  · rw [jstat.binomialcdf_sum_form (Nat.cast_nonneg x) (by exact_mod_cast hlt)]
    have hfl : ⌊((x : ℕ) : ℝ)⌋.toNat = x := by simp [Int.floor_natCast]
    rw [hfl]
    exact jsum_real (fun k => ((n.choose k : ℕ) : ℝ) * p ^ k * (1 - p) ^ (n - k))
      fun i hi => jstat.binomial_natCast p (le_trans (Nat.lt_succ_iff.mp hi) hx)
  · subst heq
    rw [jstat.binomialcdf, if_neg (not_lt.mpr (Nat.cast_nonneg x))]
    simp only [if_neg (lt_irrefl ((x : ℕ) : ℝ))]
    rw [jstat.sum_choose_mul_pow x p]

/-- Witness for C1 at `n = 2`, `p = 1/2`, `x = 2`. -/
theorem binomialcdf_eq_sum_pmf_witness :
    (0 : ℝ) ≤ 1 / 2 ∧ (1 / 2 : ℝ) ≤ 1 ∧ 2 ≤ 2 ∧
      jstat.binomialcdf ((2 : ℕ) : ℝ) (1 / 2) ((2 : ℕ) : ℝ) =
        .real (∑ k in Finset.range (2 + 1),
          ((Nat.choose 2 k : ℕ) : ℝ) * (1 / 2) ^ k * (1 - 1 / 2) ^ (2 - k)) :=
  ⟨by norm_num, by norm_num, le_refl 2,
    binomialcdf_eq_sum_pmf 2 2 (1 / 2) (by norm_num) (by norm_num) (le_refl 2)⟩

/-- Claim C8: for every integer `n ≥ 0`, `gamma(n+1)` equals `factorial(n)`
exactly, via the integer-shortcut path, and both equal `n!`. -/
theorem gamma_succ_eq_factorial (n : ℕ) :
    jstat.gamma ((n : ℝ) + 1) = jstat.factorial (n : ℝ) ∧
      jstat.factorial (n : ℝ) = .real ((Nat.factorial n : ℕ) : ℝ) :=
  ⟨jstat.gamma_nat_succ n, jstat.factorial_natCast n⟩

/-- Claim C7: `factorial(n)` returns the exact product `n!` for integer
`n ≥ 0`, `NaN` for negative `n`, and (the checks being applied in that
order) delegates to `gamma(n + 1)` for non-negative non-integer `n`. -/
theorem factorial_spec :
    (∀ n : ℕ, jstat.factorial (n : ℝ) = .real ((Nat.factorial n : ℕ) : ℝ)) ∧
    (∀ x : ℝ, x < 0 → jstat.factorial x = .nan) ∧
    (∀ x : ℝ, ¬ x < 0 → x ≠ ↑⌊x⌋ → jstat.factorial x = jstat.gamma (x + 1)) :=
  ⟨jstat.factorial_natCast, fun _ h => jstat.factorial_neg h,
    fun _ h0 h1 => jstat.factorial_delegates h0 h1⟩

/-- Witness for C7 at `n = 5`, `x = -1` and `x = 1/2`. -/
theorem factorial_spec_witness :
    jstat.factorial ((5 : ℕ) : ℝ) = .real ((Nat.factorial 5 : ℕ) : ℝ) ∧
    ((-1 : ℝ) < 0 ∧ jstat.factorial (-1) = .nan) ∧
    (¬ (1 / 2 : ℝ) < 0 ∧ (1 / 2 : ℝ) ≠ ↑⌊(1 / 2 : ℝ)⌋ ∧
      jstat.factorial (1 / 2) = jstat.gamma (1 / 2 + 1)) := by
  have hfl : ⌊(1 / 2 : ℝ)⌋ = 0 := by
    rw [Int.floor_eq_zero_iff]
    norm_num [Set.mem_Ico]
  exact ⟨factorial_spec.1 5, ⟨by norm_num, factorial_spec.2.1 (-1) (by norm_num)⟩,
    ⟨by norm_num, by rw [hfl]; norm_num,
      factorial_spec.2.2 (1 / 2) (by norm_num) (by rw [hfl]; norm_num)⟩⟩

/-- Claim C10: for negative non-integer `x` the negativity check of
`factorial` fires first: the result is `NaN`, and whenever the gamma
extension `gamma(x + 1)` is an actual value (not itself `NaN` — at some
negative arguments `gamma`'s own series produces `NaN` via `Math.log` of a
negative accumulator), the returned `NaN` differs from it: the gamma path
is never what `factorial` returns on a negative argument. -/
theorem factorial_neg_noninteger_nan (x : ℝ) (h1 : x < 0) (h2 : x ≠ ↑⌊x⌋) :
    jstat.factorial x = .nan ∧
      (jstat.gamma (x + 1) ≠ .nan → jstat.factorial x ≠ jstat.gamma (x + 1)) := by
  refine ⟨jstat.factorial_neg h1, fun hg hc => hg ?_⟩
  rw [← hc, jstat.factorial_neg h1]

/-- Witness for C10 at `x = -5/2`, where `gamma(-3/2)` is a genuine real
value (the shifted accumulator is a product with an even number of negative
factors), so the inequality with the returned `NaN` is effective. -/
theorem factorial_neg_noninteger_nan_witness :
    (-5 / 2 : ℝ) < 0 ∧ (-5 / 2 : ℝ) ≠ ↑⌊(-5 / 2 : ℝ)⌋ ∧
      jstat.gamma (-5 / 2 + 1) ≠ .nan ∧
      jstat.factorial (-5 / 2) = .nan ∧
      jstat.factorial (-5 / 2) ≠ jstat.gamma (-5 / 2 + 1) := by
  have hfl : ⌊(-5 / 2 : ℝ)⌋ = -3 := by
    rw [Int.floor_eq_iff]
    push_cast
    norm_num
  have hfl2 : ⌊(-3 / 2 : ℝ)⌋ = -2 := by
    rw [Int.floor_eq_iff]
    push_cast
    norm_num
  have h32 : (-5 / 2 : ℝ) + 1 = -3 / 2 := by norm_num
  have hv : 0 < (jstat.gammaShift (⌈(8 : ℝ) - (-3 / 2)⌉.toNat) 1 (-3 / 2)).1 := by
    have hc : ⌈(8 : ℝ) - (-3 / 2)⌉ = 10 := by
      rw [Int.ceil_eq_iff]
      push_cast
      norm_num
    rw [hc, show Int.toNat 10 = 10 from rfl, jstat.gammaShift_eq]
    norm_num [Finset.prod_range_succ]
  have hg : jstat.gamma (-5 / 2 + 1) ≠ .nan := by
    rw [h32, jstat.gamma_noninteger (by rw [hfl2]; push_cast; norm_num)]
    obtain ⟨s, hs⟩ := jstat.gammaSeries_isReal hv
    rw [hs]
    simp
  have h := factorial_neg_noninteger_nan (-5 / 2) (by norm_num)
    (by rw [hfl]; push_cast; norm_num)
  exact ⟨by norm_num, by rw [hfl]; push_cast; norm_num, hg, h.1, h.2 hg⟩

/-- Claim C4: for non-integer `x` (including negative non-integer `x`),
`negbin` and `hypgeom` return the `false` sentinel, which is a value
distinct from `0`, from every number, and from `NaN`. -/
theorem negbin_hypgeom_noninteger_sentinel (r p N m n x : ℝ) (hx : x ≠ ↑⌊x⌋) :
    jstat.negbin r p x = .fls ∧ jstat.hypgeom N m n x = .fls ∧
      JVal.fls ≠ JVal.real 0 ∧ (∀ v : ℝ, JVal.fls ≠ JVal.real v) ∧
      JVal.fls ≠ JVal.nan := by
  refine ⟨?_, ?_, by simp, fun v => by simp, by simp⟩
  · rw [jstat.negbin, if_pos hx]
  · rw [jstat.hypgeom, if_pos hx]

/-- Witness for C4 at the negative non-integer `x = -3/2`. -/
theorem negbin_hypgeom_noninteger_sentinel_witness :
    (-3 / 2 : ℝ) ≠ ↑⌊(-3 / 2 : ℝ)⌋ ∧
      (jstat.negbin 2 (1 / 2) (-3 / 2) = .fls ∧
        jstat.hypgeom 50 25 10 (-3 / 2) = .fls ∧
        JVal.fls ≠ JVal.real 0 ∧ (∀ v : ℝ, JVal.fls ≠ JVal.real v) ∧
        JVal.fls ≠ JVal.nan) := by
  have hfl : ⌊(-3 / 2 : ℝ)⌋ = -2 := by
    rw [Int.floor_eq_iff]
    push_cast
    norm_num
  exact ⟨by rw [hfl]; push_cast; norm_num,
    negbin_hypgeom_noninteger_sentinel 2 (1 / 2) 50 25 10 (-3 / 2)
      (by rw [hfl]; push_cast; norm_num)⟩

/-- Claim C3: `poisson(l, x)` performs no integer check: on non-integer `x`
it never returns the `false` sentinel but evaluates
`l^x · e^(−l) / factorial(x)`, and for non-integer `x ≥ 0` that `factorial`
call is the gamma continuous extension `gamma(x + 1)` — unlike `negbin` and
`hypgeom`, which return `false` at the same `x`. -/
theorem poisson_no_integer_check (l x : ℝ) (hx : x ≠ ↑⌊x⌋) :
    jstat.poisson l x ≠ .fls ∧
    jstat.poisson l x =
      jdiv (jmul (jpow l x) (.real (Real.exp (-l)))) (jstat.factorial x) ∧
    (0 ≤ x → jstat.factorial x = jstat.gamma (x + 1)) ∧
    (∀ r p, jstat.negbin r p x = .fls) ∧
    (∀ N m n, jstat.hypgeom N m n x = .fls) :=
  ⟨jdiv_ne_fls _ _, rfl,
    fun h0 => jstat.factorial_delegates (not_lt.mpr h0) hx,
    fun r p => by rw [jstat.negbin, if_pos hx],
    fun N m n => by rw [jstat.hypgeom, if_pos hx]⟩

/-- Witness for C3 at `l = 2`, `x = 3/2`. -/
theorem poisson_no_integer_check_witness :
    (3 / 2 : ℝ) ≠ ↑⌊(3 / 2 : ℝ)⌋ ∧
      (jstat.poisson 2 (3 / 2) ≠ .fls ∧
        jstat.poisson 2 (3 / 2) =
          jdiv (jmul (jpow 2 (3 / 2)) (.real (Real.exp (-2)))) (jstat.factorial (3 / 2)) ∧
        (0 ≤ (3 / 2 : ℝ) → jstat.factorial (3 / 2) = jstat.gamma (3 / 2 + 1)) ∧
        (∀ r p, jstat.negbin r p (3 / 2) = .fls) ∧
        (∀ N m n, jstat.hypgeom N m n (3 / 2) = .fls)) := by
  have hfl : ⌊(3 / 2 : ℝ)⌋ = 1 := by
    rw [Int.floor_eq_iff]
    push_cast
    norm_num
  exact ⟨by rw [hfl]; push_cast; norm_num,
    poisson_no_integer_check 2 (3 / 2) (by rw [hfl]; push_cast; norm_num)⟩

/-- Claim C5: the rate parameter of `exponentialcdf` has no effect: for all
rates `l1, l2` and every `x`, both calls return `1 − e^(−x)`. -/
theorem exponentialcdf_ignores_rate (l1 l2 x : ℝ) :
    jstat.exponentialcdf l1 x = jstat.exponentialcdf l2 x ∧
      jstat.exponentialcdf l1 x = 1 - Real.exp (-x) :=
  ⟨rfl, rfl⟩

/-- Counterexample to claim C2: at the real query point `x = -1` (a valid
input by the claim's own reading, which includes `x < 0`), the value
`exponentialcdf(1, -1) = 1 − e` is negative, so it does not lie in `[0,1]`. -/
theorem exponentialcdf_neg_arg_not_in_unit_interval :
    ¬ (0 ≤ jstat.exponentialcdf 1 (-1) ∧ jstat.exponentialcdf 1 (-1) ≤ 1) := by
  rintro ⟨h, -⟩
  rw [jstat.exponentialcdf, neg_neg] at h
  have he : (2 : ℝ) ≤ Real.exp 1 := by
    have h1 := Real.add_one_le_exp (1 : ℝ)
    linarith
  linarith

/-- Amended claim C2: every pmf/cdf of the DistributionEngine returns a
value in `[0,1]` on its valid inputs — probability `p ∈ [0,1]`, rate
`l ≥ 0`, count parameters non-negative integers kept inside the domain of
the factorial-based combinations (`k ≤ n` for the binomial pmf; `r ≥ 1` for
the negative binomial; `x ≤ m`, `x ≤ n`, `m + n ≤ N + x` for the
hypergeometric pmf and the analogous bounds on `⌊x⌋` for its cdf, since
outside them `combination` takes a negative-argument `factorial` and yields
`NaN`), and any real query point `x` for the cdfs — with the single
exception, forced by the counterexample, of `exponentialcdf`, whose value
`1 − e^(−x)` lies in `[0,1]` only for `x ≥ 0` and is negative for `x < 0`. -/
theorem distribution_engine_unit_interval :
    (∀ a b x : ℝ, ∃ v : ℝ, jstat.uniformcdf a b x = .real v ∧ 0 ≤ v ∧ v ≤ 1) ∧
    (∀ (n k : ℕ) (p : ℝ), 0 ≤ p → p ≤ 1 → k ≤ n →
      ∃ v : ℝ, jstat.binomial (n : ℝ) p (k : ℝ) = .real v ∧ 0 ≤ v ∧ v ≤ 1) ∧
    (∀ (n : ℕ) (p x : ℝ), 0 ≤ p → p ≤ 1 →
      ∃ v : ℝ, jstat.binomialcdf (n : ℝ) p x = .real v ∧ 0 ≤ v ∧ v ≤ 1) ∧
    (∀ (r x : ℕ) (p : ℝ), 1 ≤ r → 0 ≤ p → p ≤ 1 →
      ∃ v : ℝ, jstat.negbin (r : ℝ) p (x : ℝ) = .real v ∧ 0 ≤ v ∧ v ≤ 1) ∧
    (∀ (r : ℕ) (p x : ℝ), 1 ≤ r → 0 ≤ p → p ≤ 1 →
      ∃ v : ℝ, jstat.negbincdf (r : ℝ) p x = .real v ∧ 0 ≤ v ∧ v ≤ 1) ∧
    (∀ N m n x : ℕ, x ≤ m → x ≤ n → m + n ≤ N + x →
      ∃ v : ℝ, jstat.hypgeom (N : ℝ) (m : ℝ) (n : ℝ) (x : ℝ) = .real v ∧ 0 ≤ v ∧ v ≤ 1) ∧
    (∀ (N m n : ℕ) (x : ℝ), ⌊x⌋.toNat ≤ m → ⌊x⌋.toNat ≤ n → m + n ≤ N →
      ∃ v : ℝ, jstat.hypgeomcdf (N : ℝ) (m : ℝ) (n : ℝ) x = .real v ∧ 0 ≤ v ∧ v ≤ 1) ∧
    (∀ l x : ℝ, 0 ≤ x → 0 ≤ jstat.exponentialcdf l x ∧ jstat.exponentialcdf l x ≤ 1) ∧
    (∀ (l : ℝ) (x : ℕ), 0 ≤ l →
      ∃ v : ℝ, jstat.poisson l (x : ℝ) = .real v ∧ 0 ≤ v ∧ v ≤ 1) ∧
    (∀ l x : ℝ, 0 ≤ l →
      ∃ v : ℝ, jstat.poissoncdf l x = .real v ∧ 0 ≤ v ∧ v ≤ 1) := by
  refine ⟨?_, ?_, ?_, ?_, ?_, ?_, ?_, ?_, ?_, ?_⟩
  · -- uniformcdf, for all parameters: the division branch implies a ≤ x < b
    intro a b x
    rw [jstat.uniformcdf]
    split_ifs with h1 h2
    · exact ⟨0, rfl, le_refl 0, by norm_num⟩
    · have h3 := not_lt.mp h1
      refine ⟨(x - a) / (b - a),
        jdiv_real _ _ (sub_pos.mpr (lt_of_le_of_lt h3 h2)).ne', ?_, ?_⟩
      · apply div_nonneg <;> linarith
      · rw [div_le_one (by linarith)]
        linarith
    · exact ⟨1, rfl, by norm_num, le_refl 1⟩
  · -- binomial pmf
    intro n k p hp0 hp1 hk
    rw [jstat.binomial_natCast p hk]
    exact ⟨_, rfl, jstat.binomial_term_nonneg n k hp0 hp1,
      jstat.binomial_term_le_one hk hp0 hp1⟩
  · -- binomialcdf
    intro n p x hp0 hp1
    by_cases hx0 : x < 0
    · rw [jstat.binomialcdf, if_pos hx0]
      exact ⟨0, rfl, le_refl 0, by norm_num⟩
    · by_cases hxn : x < (n : ℝ)
      · have h0 : 0 ≤ x := not_lt.mp hx0
        rw [jstat.binomialcdf_sum_form h0 hxn]
        have ht : ⌊x⌋.toNat < n := by
          exact_mod_cast lt_of_le_of_lt (jstat.floor_toNat_le h0) hxn
        refine ⟨_, jsum_real (fun i => ((n.choose i : ℕ) : ℝ) * p ^ i * (1 - p) ^ (n - i))
          (fun i hi => jstat.binomial_natCast p (by omega)), ?_, ?_⟩
        · exact Finset.sum_nonneg fun i _ => jstat.binomial_term_nonneg n i hp0 hp1
        · calc ∑ i in Finset.range (⌊x⌋.toNat + 1),
                ((n.choose i : ℕ) : ℝ) * p ^ i * (1 - p) ^ (n - i)
              ≤ ∑ i in Finset.range (n + 1),
                ((n.choose i : ℕ) : ℝ) * p ^ i * (1 - p) ^ (n - i) :=
                Finset.sum_le_sum_of_subset_of_nonneg
                  (Finset.range_subset.mpr (by omega))
                  (fun i _ _ => jstat.binomial_term_nonneg n i hp0 hp1)
            _ = 1 := jstat.sum_choose_mul_pow n p
      · rw [jstat.binomialcdf, if_neg hx0]
        simp only [if_neg hxn]
        exact ⟨1, rfl, by norm_num, le_refl 1⟩
  · -- negbin pmf
    intro r x p hr hp0 hp1
    rw [jstat.negbin_natCast hr]
    refine ⟨_, rfl, mul_nonneg (mul_nonneg (Nat.cast_nonneg _) (pow_nonneg hp0 _))
      (pow_nonneg (by linarith) _), ?_⟩
    calc (((x + r - 1).choose (r - 1) : ℕ) : ℝ) * p ^ r * (1 - p) ^ x
        ≤ ∑ k in Finset.range (x + 1),
            (((k + r - 1).choose (r - 1) : ℕ) : ℝ) * p ^ r * (1 - p) ^ k :=
          Finset.single_le_sum
            (f := fun k => (((k + r - 1).choose (r - 1) : ℕ) : ℝ) * p ^ r * (1 - p) ^ k)
            (fun i _ => mul_nonneg (mul_nonneg (Nat.cast_nonneg _) (pow_nonneg hp0 _))
              (pow_nonneg (by linarith) _))
            (Finset.mem_range.mpr (Nat.lt_succ_self x))
      _ ≤ 1 := jstat.negbin_sum_le_one r x hr hp0 hp1
  · -- negbincdf
    intro r p x hr hp0 hp1
    by_cases hx0 : x < 0
    · rw [jstat.negbincdf, if_pos hx0]
      exact ⟨0, rfl, le_refl 0, by norm_num⟩
    · rw [jstat.negbincdf, if_neg hx0]
      refine ⟨_, jsum_real
        (fun k => (((k + r - 1).choose (r - 1) : ℕ) : ℝ) * p ^ r * (1 - p) ^ k)
        (fun i _ => jstat.negbin_natCast hr p), ?_, ?_⟩
      · exact Finset.sum_nonneg fun i _ =>
          mul_nonneg (mul_nonneg (Nat.cast_nonneg _) (pow_nonneg hp0 _))
            (pow_nonneg (by linarith) _)
      · exact jstat.negbin_sum_le_one r ⌊x⌋.toNat hr hp0 hp1
  · -- hypgeom pmf
    intro N m n x hxm hxn hmn
    rw [jstat.hypgeom_natCast hxm hxn hmn]
    have hD : (0 : ℝ) < ((N.choose n : ℕ) : ℝ) := by
      exact_mod_cast Nat.choose_pos (by omega : n ≤ N)
    refine ⟨_, rfl, div_nonneg (mul_nonneg (Nat.cast_nonneg _) (Nat.cast_nonneg _)) hD.le, ?_⟩
    rw [div_le_one hD]
    have hmem : (x, n - x) ∈ Finset.antidiagonal n := by
      rw [Finset.mem_antidiagonal]
      omega
    have hnum : m.choose x * (N - m).choose (n - x) ≤ N.choose n := by
      have h := Nat.add_choose_eq m (N - m) n
      rw [Nat.add_sub_cancel' (by omega : m ≤ N)] at h
      rw [h]
      exact Finset.single_le_sum (f := fun ij : ℕ × ℕ => m.choose ij.1 * (N - m).choose ij.2)
        (fun i _ => Nat.zero_le _) hmem
    exact_mod_cast hnum
  · -- hypgeomcdf
    intro N m n x htm htn hmn
    by_cases hx0 : x < 0
    · rw [jstat.hypgeomcdf, if_pos hx0]
      exact ⟨0, rfl, le_refl 0, by norm_num⟩
    · rw [jstat.hypgeomcdf, if_neg hx0]
      have hD : (0 : ℝ) < ((N.choose n : ℕ) : ℝ) := by
        exact_mod_cast Nat.choose_pos (by omega : n ≤ N)
      refine ⟨_, jsum_real
        (fun k => (((m.choose k : ℕ) : ℝ) * (((N - m).choose (n - k) : ℕ) : ℝ))
          / ((N.choose n : ℕ) : ℝ))
        (fun i hi => jstat.hypgeom_natCast (by omega) (by omega) (by omega)), ?_, ?_⟩
      · exact Finset.sum_nonneg fun i _ =>
          div_nonneg (mul_nonneg (Nat.cast_nonneg _) (Nat.cast_nonneg _)) hD.le
      · have hsum : ∑ k in Finset.range (⌊x⌋.toNat + 1),
            ((((m.choose k : ℕ) : ℝ) * (((N - m).choose (n - k) : ℕ) : ℝ))
              / ((N.choose n : ℕ) : ℝ))
            = ((∑ k in Finset.range (⌊x⌋.toNat + 1),
                m.choose k * (N - m).choose (n - k) : ℕ) : ℝ) / ((N.choose n : ℕ) : ℝ) := by
          rw [← Finset.sum_div]
          congr 1
          push_cast
          rfl
        rw [hsum, div_le_one hD]
        exact_mod_cast jstat.hypgeom_num_sum_le (by omega : m ≤ N) htn
  · -- exponentialcdf, on x ≥ 0
    intro l x hx
    rw [jstat.exponentialcdf]
    have h1 : Real.exp (-x) ≤ 1 := by
      have h2 := Real.exp_le_exp.mpr (neg_nonpos.mpr hx)
      rwa [Real.exp_zero] at h2
    have h3 : 0 < Real.exp (-x) := Real.exp_pos _
    constructor <;> linarith
  · -- poisson pmf
    intro l x hl
    rw [jstat.poisson_natCast]
    exact ⟨_, rfl,
      div_nonneg (mul_nonneg (pow_nonneg hl _) (Real.exp_pos _).le) (Nat.cast_nonneg _),
      jstat.poisson_term_le_one hl x⟩
  · -- poissoncdf
    intro l x hl
    by_cases hx0 : x < 0
    · rw [jstat.poissoncdf, if_pos hx0]
      exact ⟨0, rfl, le_refl 0, by norm_num⟩
    · rw [jstat.poissoncdf, if_neg hx0]
      refine ⟨_, jsum_real
        (fun k => l ^ k * Real.exp (-l) / ((Nat.factorial k : ℕ) : ℝ))
        (fun i _ => jstat.poisson_natCast l i), ?_, ?_⟩
      · exact Finset.sum_nonneg fun i _ =>
          div_nonneg (mul_nonneg (pow_nonneg hl _) (Real.exp_pos _).le) (Nat.cast_nonneg _)
      · exact jstat.poisson_sum_le_one hl ⌊x⌋.toNat

/-- Witness for the amended C2 across the engine: `uniformcdf(0,2,1)`,
`binomial(5,1/2,2)`, `negbincdf(2,1/2,1)`, `hypgeom(50,25,10,5)`,
`exponentialcdf(5,2)` and `poissoncdf(2,3)`. -/
theorem distribution_engine_unit_interval_witness :
    (∃ v : ℝ, jstat.uniformcdf 0 2 1 = .real v ∧ 0 ≤ v ∧ v ≤ 1) ∧
    ((0 : ℝ) ≤ 1 / 2 ∧ (1 / 2 : ℝ) ≤ 1 ∧ (2 : ℕ) ≤ 5 ∧
      ∃ v : ℝ, jstat.binomial ((5 : ℕ) : ℝ) (1 / 2) ((2 : ℕ) : ℝ) = .real v ∧ 0 ≤ v ∧ v ≤ 1) ∧
    ((1 : ℕ) ≤ 2 ∧
      ∃ v : ℝ, jstat.negbincdf ((2 : ℕ) : ℝ) (1 / 2) 1 = .real v ∧ 0 ≤ v ∧ v ≤ 1) ∧
    ((5 : ℕ) ≤ 25 ∧ (5 : ℕ) ≤ 10 ∧ (25 + 10 : ℕ) ≤ 50 + 5 ∧
      ∃ v : ℝ, jstat.hypgeom ((50 : ℕ) : ℝ) ((25 : ℕ) : ℝ) ((10 : ℕ) : ℝ) ((5 : ℕ) : ℝ)
        = .real v ∧ 0 ≤ v ∧ v ≤ 1) ∧
    ((0 : ℝ) ≤ 2 ∧ 0 ≤ jstat.exponentialcdf 5 2 ∧ jstat.exponentialcdf 5 2 ≤ 1) ∧
    ((0 : ℝ) ≤ 2 ∧ ∃ v : ℝ, jstat.poissoncdf 2 3 = .real v ∧ 0 ≤ v ∧ v ≤ 1) :=
  ⟨distribution_engine_unit_interval.1 0 2 1,
    ⟨by norm_num, by norm_num, by norm_num,
      distribution_engine_unit_interval.2.1 5 2 (1 / 2) (by norm_num) (by norm_num)
        (by norm_num)⟩,
    ⟨by norm_num,
      distribution_engine_unit_interval.2.2.2.2.1 2 (1 / 2) 1 (by norm_num) (by norm_num)
        (by norm_num)⟩,
    ⟨by norm_num, by norm_num, by norm_num,
      distribution_engine_unit_interval.2.2.2.2.2.1 50 25 10 5 (by norm_num) (by norm_num)
        (by norm_num)⟩,
    ⟨by norm_num,
      (distribution_engine_unit_interval.2.2.2.2.2.2.2.1 5 2 (by norm_num)).1,
      (distribution_engine_unit_interval.2.2.2.2.2.2.2.1 5 2 (by norm_num)).2⟩,
    ⟨by norm_num,
      distribution_engine_unit_interval.2.2.2.2.2.2.2.2.2 2 3 (by norm_num)⟩⟩

/-- Counterexample to claim C6: there is no input with `a == b` on which
`uniformcdf` produces an infinity or `NaN` — the division branch is guarded
by `a ≤ x < b`, which is unsatisfiable when `b = a`. -/
theorem uniformcdf_degenerate_never_inf_nan :
    ¬ ∃ a x : ℝ, jstat.uniformcdf a a x = .inf ∨ jstat.uniformcdf a a x = .ninf ∨
      jstat.uniformcdf a a x = .nan := by
  rintro ⟨a, x, h⟩
  rw [jstat.uniformcdf] at h
  split_ifs at h <;> rcases h with h | h | h <;> exact h

/-- Amended claim C6: with `a == b` the zero-denominator division
`(x − a) / (b − a)` is never executed: `uniformcdf(a, a, x)` returns `0`
(when `x < a`) or `1` (when `x ≥ a`), never infinity or `NaN`. -/
theorem uniformcdf_degenerate_zero_or_one (a x : ℝ) :
    jstat.uniformcdf a a x = .real 0 ∨ jstat.uniformcdf a a x = .real 1 := by
  rw [jstat.uniformcdf]
  split_ifs
  · exact Or.inl rfl
  · exact Or.inr rfl

/-- Claim C9: for `x ≥ 0`, each of `negbincdf`, `hypgeomcdf` and
`poissoncdf` coincides with the generic helper `sumFunc` applied to its pmf
over the integer range `0 … x`, and `binomialcdf` does too on `0 ≤ x < n`
despite its array-building implementation. -/
theorem cdfs_eq_sumFunc (r p N m nn l nb pb x : ℝ) (hx : 0 ≤ x) :
    jstat.negbincdf r p x = jstat.sumFunc (fun k => jstat.negbin r p k) 0 x ∧
    jstat.hypgeomcdf N m nn x = jstat.sumFunc (fun k => jstat.hypgeom N m nn k) 0 x ∧
    jstat.poissoncdf l x = jstat.sumFunc (fun k => jstat.poisson l k) 0 x ∧
    (x < nb →
      jstat.binomialcdf nb pb x = jstat.sumFunc (fun k => jstat.binomial nb pb k) 0 x) := by
  refine ⟨?_, ?_, ?_, fun hlt => ?_⟩
  · rw [jstat.negbincdf, if_neg (not_lt.mpr hx), jstat.sumFunc_zero_bound _ hx]
  · rw [jstat.hypgeomcdf, if_neg (not_lt.mpr hx), jstat.sumFunc_zero_bound _ hx]
  · rw [jstat.poissoncdf, if_neg (not_lt.mpr hx), jstat.sumFunc_zero_bound _ hx]
  · rw [jstat.binomialcdf_sum_form hx hlt, jstat.sumFunc_zero_bound _ hx]

/-- Witness for C9 at `x = 1` with concrete parameters. -/
theorem cdfs_eq_sumFunc_witness :
    (0 : ℝ) ≤ 1 ∧ (1 : ℝ) < 3 ∧
    jstat.negbincdf 2 (1 / 2) 1 = jstat.sumFunc (fun k => jstat.negbin 2 (1 / 2) k) 0 1 ∧
    jstat.binomialcdf 3 (1 / 2) 1 = jstat.sumFunc (fun k => jstat.binomial 3 (1 / 2) k) 0 1 :=
  ⟨by norm_num, by norm_num,
    (cdfs_eq_sumFunc 2 (1 / 2) 50 25 10 2 3 (1 / 2) 1 (by norm_num)).1,
    (cdfs_eq_sumFunc 2 (1 / 2) 50 25 10 2 3 (1 / 2) 1 (by norm_num)).2.2.2 (by norm_num)⟩
